import Mathlib

/-!
Verification of `src/release-pr.ts` (release-please): the `ReleasePR`
orchestrator class.  The class is embedded shallowly: every method becomes a
pure Lean function, the remote GitHub collaborator becomes an oracle record
`Env` of response functions, and each collaborator call a method performs is
recorded in an explicit trace (`List GHCall`) returned alongside the result.
JavaScript string primitives used by the source (`String.prototype.split`,
`String.prototype.trim`, truthiness of optional strings) are modelled on
`List Char` with structural (fuel-based) recursion so that concrete runs
evaluate inside the kernel.
-/

namespace ReleasePlease

/-- Decidable equality for `Except`, so concrete runs can be checked by
`decide`. -/
instance instDecEqExcept {ε α : Type} [DecidableEq ε] [DecidableEq α] :
    DecidableEq (Except ε α) := fun x y =>
  match x, y with
  | Except.ok a, Except.ok b =>
      if h : a = b then isTrue (by rw [h])
      else isFalse (by intro hc; cases hc; exact h rfl)
  | Except.error e, Except.error f =>
      if h : e = f then isTrue (by rw [h])
      else isFalse (by intro hc; cases hc; exact h rfl)
  | Except.ok _, Except.error _ => isFalse (by intro hc; cases hc)
  | Except.error _, Except.ok _ => isFalse (by intro hc; cases hc)

/-! ### JS string primitives -/

/-- Index of the first occurrence of `sep` in `l` (leftmost position at which
`sep` is a prefix of the remaining list), as used by `String.prototype.split`'s
left-to-right scan.  `none` when `sep` does not occur. -/
def findFirstSep (sep : List Char) : List Char → Option Nat
  | [] => if sep.isEmpty then some 0 else none
  | c :: cs =>
      if sep.isPrefixOf (c :: cs) then some 0
      else (findFirstSep sep cs).map (· + 1)

/-- Worker for `jsSplitList`: scans `l` left to right, accumulating the current
piece (reversed) in `acc`; on a separator match it emits the piece and resumes
the scan after the separator, exactly as `String.prototype.split` does.  `fuel`
only forces structural recursion; every call site supplies `fuel ≥ l.length`,
which makes the fuel-exhausted branch unreachable. -/
def jsSplitGo (sep : List Char) (fuel : Nat) (acc : List Char) (l : List Char) :
    List (List Char) :=
  match fuel with
  | 0 => [acc.reverse ++ l]
  | fuel + 1 =>
      match l with
      | [] => [acc.reverse]
      | c :: cs =>
          if sep.isPrefixOf (c :: cs) then
            acc.reverse :: jsSplitGo sep fuel [] ((c :: cs).drop sep.length)
          else
            jsSplitGo sep fuel (c :: acc) cs

/-- JS `String.prototype.split` with a string separator, on `List Char`.
For an empty separator JS splits into single characters. -/
def jsSplitList (sep l : List Char) : List (List Char) :=
  if sep = [] then l.map (fun c => [c])
  else jsSplitGo sep l.length [] l

/-- JS `String.prototype.split`, on `String`. -/
def jsSplit (sep s : String) : List String :=
  (jsSplitList sep.data s.data).map String.mk

/-- Removes leading whitespace characters. -/
def trimLeftChars : List Char → List Char
  | [] => []
  | c :: cs => if c.isWhitespace then trimLeftChars cs else c :: cs

/-- JS `String.prototype.trim`: removes leading and trailing whitespace. -/
def jsTrimChars (l : List Char) : List Char :=
  (trimLeftChars (trimLeftChars l).reverse).reverse

/-- JS truthiness of a `string | undefined` value: both `undefined` and the
empty string are falsy. -/
def truthyStr : Option String → Bool
  | none => false
  | some s => !(s == "")

/-- `xs[xs.length - 1]` for a JS array known to be non-empty: the last element,
with an explicit default for the (unreachable) empty case. -/
def lastElemD {α : Type} : List α → α → α
  | [], d => d
  | [x], _ => x
  | _ :: y :: rest, d => lastElemD (y :: rest) d

/-! ### semver (Modelled from the spec)

Modelled from the spec: the source calls `semver.inc(version, releaseType)`
from the external `semver` npm package, whose code is not in this repository.
Per the spec's glossary a semantic version is "a three-part
`major.minor.patch` version with defined ordering and increment rules";
`inc` returns the incremented version string, or `null` when the input cannot
be handled (malformed version, unknown release type). -/

structure SemVer where
  major : Nat
  minor : Nat
  patch : Nat
deriving Repr, DecidableEq

/-- Parses a non-empty all-digit character list as a decimal number. -/
def parseNatDigits (cs : List Char) : Option Nat :=
  if cs ≠ [] ∧ cs.all (fun c => c.isDigit) then
    some (cs.foldl (fun n c => n * 10 + (c.toNat - 48)) 0)
  else none

/-- Little-endian decimal digits of `n`; `fuel` only forces structural
recursion and every call site supplies `fuel ≥ n`. -/
def natDigitsRevGo (fuel n : Nat) : List Nat :=
  match fuel with
  | 0 => []
  | fuel + 1 => if n = 0 then [] else n % 10 :: natDigitsRevGo fuel (n / 10)

/-- The character for a decimal digit `d < 10`. -/
def digitChar (d : Nat) : Char := Char.ofNat (48 + d)

/-- Decimal rendering of a natural number as a character list. -/
def renderNat (n : Nat) : List Char :=
  if n = 0 then ['0'] else ((natDigitsRevGo n n).reverse).map digitChar

/-- `major.minor.patch` rendering of a semantic version. -/
def renderSemVer (v : SemVer) : String :=
  String.mk (renderNat v.major ++ '.' :: (renderNat v.minor ++ '.' :: renderNat v.patch))

/-- Parses a `major.minor.patch` version string. -/
def parseSemVer (s : String) : Option SemVer :=
  match jsSplitList ['.'] s.data with
  | [ma, mi, pa] =>
      match parseNatDigits ma, parseNatDigits mi, parseNatDigits pa with
      | some a, some b, some c => some ⟨a, b, c⟩
      | _, _, _ => none
  | _ => none

/-- The increment rules of semantic versioning on parsed versions. -/
def semverIncVer (v : SemVer) (releaseType : String) : Option SemVer :=
  if releaseType = "major" then some ⟨v.major + 1, 0, 0⟩
  else if releaseType = "minor" then some ⟨v.major, v.minor + 1, 0⟩
  else if releaseType = "patch" then some ⟨v.major, v.minor, v.patch + 1⟩
  else none

/-- Modelled from the spec: `semver.inc` — increments a version string by a
release-type's size, `none` on a malformed version or unknown release type. -/
def semverInc (version releaseType : String) : Option String :=
  match parseSemVer version with
  | none => none
  | some v =>
      match semverIncVer v releaseType with
      | none => none
      | some v2 => some (renderSemVer v2)

/-- Strict semver ordering on parsed versions (lexicographic on
major, minor, patch). -/
def semverLtV (a b : SemVer) : Bool :=
  decide (a.major < b.major) ||
    (decide (a.major = b.major) &&
      (decide (a.minor < b.minor) ||
        (decide (a.minor = b.minor) && decide (a.patch < b.patch))))

/-- Strict semver ordering on version strings; `false` when either side is
malformed. -/
def semverLt (a b : String) : Bool :=
  match parseSemVer a, parseSemVer b with
  | some x, some y => semverLtV x y
  | _, _ => false

/-! ### Data model of `release-pr.ts` and its collaborator interfaces -/

/-- `GitHubTag` from `./github`: only its interface is visible here
(`{sha, name, version}`, see the spec's external-interface list). -/
structure GitHubTag where
  sha : String
  name : String
  version : String
deriving Repr, DecidableEq

/-- `GitHubReleasePR` from `./github`: the fields `run` reads
(`number`, `sha`). -/
structure GitHubReleasePR where
  number : Nat
  sha : String
deriving Repr, DecidableEq

/-- `PullsListResponseItem` from `@octokit/rest`: only the `number` field is
read by `closeStaleReleasePRs`. -/
structure PullsListResponseItem where
  number : Nat
deriving Repr, DecidableEq

/-- The constructor arguments of `ConventionalCommits`
(`{commits, githubRepoUrl, bumpMinorPreMajor}`). -/
structure CCParams where
  commits : List String
  githubRepoUrl : String
  bumpMinorPreMajor : Bool
deriving Repr, DecidableEq

/-- The result of `ConventionalCommits.suggestBump`: the field read by
`coerceReleaseCandidate` is `releaseType` (`major`/`minor`/`patch`). -/
structure BumpSuggestion where
  releaseType : String
deriving Repr, DecidableEq

/-- The argument of `ConventionalCommits.generateChangelogEntry`
(`{version, currentTag, previousTag}`). -/
structure ChangelogEntryParams where
  version : String
  currentTag : String
  previousTag : Option String
deriving Repr, DecidableEq

/-- The shared constructor-argument shape of the three updaters
(`{path, changelogEntry, version, packageName}`). -/
structure UpdateParams where
  path : String
  changelogEntry : String
  version : String
  packageName : String
deriving Repr, DecidableEq

/-- The `Update[]` entries `nodeRelease` builds: one per updater class. -/
inductive Update where
  | changelog (params : UpdateParams)
  | packageJson (params : UpdateParams)
  | samplesPackageJson (params : UpdateParams)
deriving Repr, DecidableEq

/-- The argument of `GitHub.openPR`. -/
structure OpenPRParams where
  branch : String
  version : String
  sha : String
  updates : List Update
  title : String
  body : String
  labels : List String
deriving Repr, DecidableEq

/-- One collaborator operation requested from the `GitHub` client, with its
arguments; a run produces the list of these in request order. -/
inductive GHCall where
  | findMergedReleasePR (labels : List String)
  | latestTag
  | commitsSinceSha (sha : Option String)
  | openPR (params : OpenPRParams)
  | addLabels (pr : Nat) (labels : List String)
  | findOpenReleasePRs (labels : List String)
  | closePR (number : Nat)
deriving Repr, DecidableEq

/-- Oracle for every external collaborator response a run consumes: the
`GitHub` client's answers plus the `ConventionalCommits` computations (whose
module is outside this source file).  Determinism of the oracle is harmless:
every theorem quantifies over all oracles. -/
structure Env where
  findMergedReleasePR : List String → Option GitHubReleasePR
  latestTag : Option GitHubTag
  commitsSinceSha : Option String → List String
  suggestBump : CCParams → String → BumpSuggestion
  generateChangelogEntry : CCParams → ChangelogEntryParams → String
  openPR : OpenPRParams → Nat
  findOpenReleasePRs : List String → List PullsListResponseItem

/-- `ReleaseType.Node = 'node'` (the string enum from the source). -/
def ReleaseTypeNode : String := "node"

/-- `ReleasePROptions` from the source (`issueLabel` and `token` are carried
but never read by the methods verified here). -/
structure ReleasePROptions where
  bumpMinorPreMajor : Option Bool
  label : String
  issueLabel : Option String
  token : Option String
  repoUrl : String
  packageName : String
  releaseAs : Option String
  releaseType : String
deriving Repr, DecidableEq

/-- The fields of the `ReleasePR` class (the `gh` client itself lives in the
`Env` oracle). -/
structure ReleasePR where
  bumpMinorPreMajor : Bool
  labels : List String
  repoUrl : String
  token : Option String
  packageName : String
  releaseAs : Option String
  releaseType : String
deriving Repr, DecidableEq

/-- The `ReleasePR` constructor: notably
`this.labels = options.label.split(',')` and
`this.bumpMinorPreMajor = options.bumpMinorPreMajor || false`. -/
def ReleasePR.ofOptions (options : ReleasePROptions) : ReleasePR :=
  { bumpMinorPreMajor := options.bumpMinorPreMajor.getD false
    labels := jsSplit "," options.label
    repoUrl := options.repoUrl
    token := options.token
    packageName := options.packageName
    releaseAs := options.releaseAs
    releaseType := options.releaseType }

/-- `ReleaseCandidate` from the source. -/
structure ReleaseCandidate where
  version : String
  previousTag : Option String
deriving Repr, DecidableEq

/-! ### The methods of `ReleasePR`

Each method returns its collaborator-call trace alongside its result; a thrown
JS `Error` becomes `Except.error` carrying the message. -/

/-- `coerceReleaseCandidate(cc, latestTag)`: previous tag name, seed version
`'1.0.0'`, then the `if (latestTag && !this.releaseAs) / else if
(this.releaseAs)` chain around `semver.inc`, throwing
`failed to increment ${version}` when `inc` yields no result.  Performs no
collaborator calls. -/
def ReleasePR.coerceReleaseCandidate (rp : ReleasePR) (env : Env) (cc : CCParams)
    (latestTag : Option GitHubTag) : Except String ReleaseCandidate :=
  let previousTag : Option String := latestTag.map (fun t => t.name)
  let version : String := match latestTag with
    | some t => t.version
    | none => "1.0.0"
  if latestTag.isSome && !(truthyStr rp.releaseAs) then
    let bump := env.suggestBump cc version
    match semverInc version bump.releaseType with
    | none => Except.error ("failed to increment " ++ version)
    | some candidate => Except.ok { version := candidate, previousTag }
  else if truthyStr rp.releaseAs then
    Except.ok { version := rp.releaseAs.getD "", previousTag }
  else
    Except.ok { version, previousTag }

/-- `shaFromCommits(commits)`: `commits[0].split('-hash-')`, then the trimmed
last element.  `none` models the `TypeError` JS raises on an empty array
(`commits[0]` is `undefined`). -/
def shaFromCommits (commits : List String) : Option String :=
  match commits with
  | [] => none
  | msg :: _ =>
      let split := jsSplitList "-hash-".data msg.data
      some (String.mk (jsTrimChars (lastElemD split [])))

/-- The `for` loop of `closeStaleReleasePRs`: one `closePR` request per listed
PR whose number differs from the current one. -/
def closeStaleLoop (currentPRNumber : Nat) : List PullsListResponseItem → List GHCall
  | [] => []
  | pr :: rest =>
      if pr.number ≠ currentPRNumber then
        GHCall.closePR pr.number :: closeStaleLoop currentPRNumber rest
      else
        closeStaleLoop currentPRNumber rest

/-- `closeStaleReleasePRs(currentPRNumber)`: lists the open release PRs
carrying `this.labels`, then requests closure of every one whose number
differs from `currentPRNumber`.  The method returns no value; its observable
behaviour is the call trace. -/
def ReleasePR.closeStaleReleasePRs (rp : ReleasePR) (env : Env)
    (currentPRNumber : Nat) : List GHCall :=
  GHCall.findOpenReleasePRs rp.labels ::
    closeStaleLoop currentPRNumber (env.findOpenReleasePRs rp.labels)

/-- `nodeRelease()`: latest tag, commits since it, conventional-commit
classification, version coercion, changelog synthesis, the one-line triviality
check, the three updates, branch-point sha extraction, PR creation, labeling,
and stale-PR retirement. -/
def ReleasePR.nodeRelease (rp : ReleasePR) (env : Env) :
    List GHCall × Except String (Option Nat) :=
  let latestTag : Option GitHubTag := env.latestTag
  let commits : List String :=
    env.commitsSinceSha (latestTag.map (fun t => t.sha))
  let trace0 : List GHCall :=
    [GHCall.latestTag, GHCall.commitsSinceSha (latestTag.map (fun t => t.sha))]
  let cc : CCParams :=
    { commits, githubRepoUrl := rp.repoUrl, bumpMinorPreMajor := rp.bumpMinorPreMajor }
  match rp.coerceReleaseCandidate env cc latestTag with
  | Except.error e => (trace0, Except.error e)
  | Except.ok candidate =>
      let changelogEntry : String := env.generateChangelogEntry cc
        { version := candidate.version
          currentTag := "v" ++ candidate.version
          previousTag := candidate.previousTag }
      if (jsSplitList ['\n'] changelogEntry.data).length = 1 then
        (trace0, Except.ok none)
      else
        let updates : List Update :=
          [Update.changelog
            { path := "CHANGELOG.md", changelogEntry
              version := candidate.version, packageName := rp.packageName },
           Update.packageJson
            { path := "package.json", changelogEntry
              version := candidate.version, packageName := rp.packageName },
           Update.samplesPackageJson
            { path := "samples/package.json", changelogEntry
              version := candidate.version, packageName := rp.packageName }]
        match shaFromCommits commits with
        | none => (trace0, Except.error "TypeError: commits[0] is undefined")
        | some sha =>
            let title : String := "chore: release " ++ candidate.version
            let body : String :=
              ":robot: I have created a release \\*beep\\* \\*boop\\* \n---\n"
                ++ changelogEntry
            let prParams : OpenPRParams :=
              { branch := "release-v" ++ candidate.version
                version := candidate.version
                sha, updates, title, body, labels := rp.labels }
            let pr : Nat := env.openPR prParams
            (trace0 ++ GHCall.openPR prParams :: GHCall.addLabels pr rp.labels ::
                rp.closeStaleReleasePRs env pr,
             Except.ok (some pr))

/-- `run()`: the merged-but-unreleased PR query first; on a hit, return its
number; otherwise dispatch on the release type, throwing
`unknown release type` off the enum. -/
def ReleasePR.run (rp : ReleasePR) (env : Env) :
    List GHCall × Except String (Option Nat) :=
  let pr : Option GitHubReleasePR := env.findMergedReleasePR rp.labels
  let trace0 : List GHCall := [GHCall.findMergedReleasePR rp.labels]
  match pr with
  | some pr => (trace0, Except.ok (some pr.number))
  | none =>
      if rp.releaseType = ReleaseTypeNode then
        let res := rp.nodeRelease env
        (trace0 ++ res.1, res.2)
      else
        (trace0, Except.error "unknown release type")

/-- The label-list argument of a collaborator call, for those calls that
take one. -/
def callLabels : GHCall → Option (List String)
  | GHCall.findMergedReleasePR ls => some ls
  | GHCall.openPR params => some params.labels
  | GHCall.addLabels _ ls => some ls
  | GHCall.findOpenReleasePRs ls => some ls
  | _ => none

/-! ### Properties of the JS split model -/

theorem jsSplitGo_ne_nil (sep : List Char) (fuel : Nat) (acc l : List Char) :
    jsSplitGo sep fuel acc l ≠ [] := by
  induction fuel generalizing acc l with
  | zero => simp [jsSplitGo]
  | succ fuel ih =>
      cases l with
      | nil => simp [jsSplitGo]
      | cons c cs =>
          simp only [jsSplitGo]
          split
          · simp
          · exact ih _ _

theorem findFirstSep_bound {sep l : List Char} {i : Nat}
    (h : findFirstSep sep l = some i) : i + sep.length ≤ l.length := by
  induction l generalizing i with
  | nil =>
      simp only [findFirstSep] at h
      split at h
      · rename_i hemp
        rw [List.isEmpty_iff] at hemp
        cases h
        simp [hemp]
      · cases h
  | cons c cs ih =>
      simp only [findFirstSep] at h
      split at h
      · rename_i hpre
        cases h
        have hp : sep <+: (c :: cs) := by
          rw [← List.isPrefixOf_iff_prefix]
          exact hpre
        obtain ⟨t, ht⟩ := hp
        have hlen := congrArg List.length ht
        simp only [List.length_append, List.length_cons] at hlen
        simp only [List.length_cons]
        omega
      · cases hcs : findFirstSep sep cs with
        | none => rw [hcs] at h; cases h
        | some j =>
            rw [hcs] at h
            simp only [Option.map_some'] at h
            cases h
            have := ih hcs
            simp only [List.length_cons]
            omega

theorem findFirstSep_decomp {sep l : List Char} {i : Nat}
    (h : findFirstSep sep l = some i) :
    l = l.take i ++ sep ++ l.drop (i + sep.length) := by
  induction l generalizing i with
  | nil =>
      simp only [findFirstSep] at h
      split at h
      · rename_i hemp
        rw [List.isEmpty_iff] at hemp
        cases h
        simp [hemp]
      · cases h
  | cons c cs ih =>
      simp only [findFirstSep] at h
      split at h
      · rename_i hpre
        cases h
        have hp : sep <+: (c :: cs) := by
          rw [← List.isPrefixOf_iff_prefix]
          exact hpre
        obtain ⟨t, ht⟩ := hp
        rw [← ht]
        simp [List.drop_left]
      · cases hcs : findFirstSep sep cs with
        | none => rw [hcs] at h; cases h
        | some j =>
            rw [hcs] at h
            simp only [Option.map_some'] at h
            cases h
            have hrec := ih hcs
            have harr : j + 1 + sep.length = (j + sep.length) + 1 := by omega
            rw [harr, List.drop_succ_cons, List.take_succ_cons]
            simp only [List.cons_append]
            exact congrArg (c :: ·) hrec

theorem findFirstSep_none_iff {sep : List Char} (hsep : sep ≠ []) (l : List Char) :
    findFirstSep sep l = none ↔ ¬ ∃ a b, l = a ++ sep ++ b := by
  induction l with
  | nil =>
      simp only [findFirstSep, List.isEmpty_iff, if_neg hsep]
      constructor
      · rintro - ⟨a, b, hab⟩
        have := congrArg List.length hab
        simp only [List.length_append, List.length_nil] at this
        have : sep.length = 0 := by omega
        exact hsep (List.length_eq_zero.mp this)
      · intro _
        trivial
  | cons c cs ih =>
      simp only [findFirstSep]
      split
      · rename_i hpre
        have hp : sep <+: (c :: cs) := by
          rw [← List.isPrefixOf_iff_prefix]
          exact hpre
        obtain ⟨t, ht⟩ := hp
        constructor
        · intro h; cases h
        · intro h
          exact absurd ⟨[], t, by simp [ht.symm]⟩ h
      · rename_i hpre
        constructor
        · intro h
          have hnone : findFirstSep sep cs = none := by
            cases hcs : findFirstSep sep cs with
            | none => rfl
            | some j => rw [hcs] at h; simp at h
          rintro ⟨a, b, hab⟩
          cases a with
          | nil =>
              apply hpre
              rw [ List.isPrefixOf_iff_prefix]
              exact ⟨b, by simpa using hab.symm⟩
          | cons a0 arest =>
              simp only [List.cons_append, List.cons.injEq] at hab
              exact (ih.mp hnone) ⟨arest, b, hab.2⟩
        · intro h
          cases hcs : findFirstSep sep cs with
          | none => rfl
          | some j =>
              exfalso
              have := findFirstSep_decomp hcs
              exact h ⟨c :: cs.take j, cs.drop (j + sep.length), by
                simp only [List.cons_append]
                exact congrArg (c :: ·) this⟩

theorem jsSplitGo_fuel {sep : List Char} (hsep : sep ≠ []) :
    ∀ fuel₁ fuel₂ acc l, l.length ≤ fuel₁ → l.length ≤ fuel₂ →
      jsSplitGo sep fuel₁ acc l = jsSplitGo sep fuel₂ acc l := by
  intro fuel₁
  induction fuel₁ with
  | zero =>
      intro fuel₂ acc l h₁ h₂
      have : l = [] := List.length_eq_zero.mp (by omega)
      subst this
      cases fuel₂ <;> simp [jsSplitGo]
  | succ f ih =>
      intro fuel₂ acc l h₁ h₂
      cases l with
      | nil => cases fuel₂ <;> simp [jsSplitGo]
      | cons c cs =>
          cases fuel₂ with
          | zero => simp at h₂
          | succ f₂ =>
              have hseplen : 1 ≤ sep.length := by
                cases sep with
                | nil => exact absurd rfl hsep
                | cons s ss => simp
              simp only [jsSplitGo]
              split
              · have hd : ((c :: cs).drop sep.length).length ≤ f := by
                  simp only [List.length_drop, List.length_cons]
                  simp only [List.length_cons] at h₁
                  omega
                have hd₂ : ((c :: cs).drop sep.length).length ≤ f₂ := by
                  simp only [List.length_drop, List.length_cons]
                  simp only [List.length_cons] at h₂
                  omega
                rw [ih f₂ [] _ hd hd₂]
              · apply ih
                · simp only [List.length_cons] at h₁; omega
                · simp only [List.length_cons] at h₂; omega

theorem jsSplitGo_none {sep : List Char} :
    ∀ fuel acc l, findFirstSep sep l = none →
      jsSplitGo sep fuel acc l = [acc.reverse ++ l] := by
  intro fuel
  induction fuel with
  | zero => intro acc l _; simp [jsSplitGo]
  | succ f ih =>
      intro acc l h
      cases l with
      | nil => simp [jsSplitGo]
      | cons c cs =>
          simp only [findFirstSep] at h
          split at h
          · cases h
          · rename_i hpre
            have hnone : findFirstSep sep cs = none := by
              cases hcs : findFirstSep sep cs with
              | none => rfl
              | some j => rw [hcs] at h; simp at h
            simp only [jsSplitGo, if_neg hpre]
            rw [ih _ _ hnone]
            simp

theorem jsSplitList_eq_go {sep : List Char} (hsep : sep ≠ []) (l : List Char) :
    jsSplitList sep l = jsSplitGo sep l.length [] l := by
  unfold jsSplitList
  rw [if_neg hsep]

theorem jsSplitList_of_none {sep l : List Char} (hsep : sep ≠ [])
    (h : findFirstSep sep l = none) : jsSplitList sep l = [l] := by
  rw [jsSplitList_eq_go hsep, jsSplitGo_none _ _ _ h]
  simp

theorem jsSplitGo_some {sep : List Char} (hsep : sep ≠ []) :
    ∀ fuel acc l i, l.length ≤ fuel → findFirstSep sep l = some i →
      jsSplitGo sep fuel acc l =
        (acc.reverse ++ l.take i) :: jsSplitList sep (l.drop (i + sep.length)) := by
  intro fuel
  induction fuel with
  | zero =>
      intro acc l i h₁ h
      have : l = [] := List.length_eq_zero.mp (by omega)
      subst this
      simp only [findFirstSep, List.isEmpty_iff, if_neg hsep] at h
      exact absurd h (by simp)
  | succ f ih =>
      intro acc l i h₁ h
      cases l with
      | nil =>
          simp only [findFirstSep, List.isEmpty_iff, if_neg hsep] at h
          exact absurd h (by simp)
      | cons c cs =>
          have hseplen : 1 ≤ sep.length := by
            cases sep with
            | nil => exact absurd rfl hsep
            | cons s ss => simp
          simp only [findFirstSep] at h
          simp only [jsSplitGo]
          split
          · rename_i hpre
            rw [if_pos hpre] at h
            cases h
            have hd : ((c :: cs).drop sep.length).length ≤ f := by
              simp only [List.length_drop, List.length_cons]
              simp only [List.length_cons] at h₁
              omega
            rw [jsSplitGo_fuel hsep f ((c :: cs).drop sep.length).length []
              _ hd (Nat.le_refl _)]
            simp only [List.take_zero, List.append_nil, Nat.zero_add]
            rw [jsSplitList_eq_go hsep]
          · rename_i hpre
            rw [if_neg hpre] at h
            cases hcs : findFirstSep sep cs with
            | none => rw [hcs] at h; cases h
            | some j =>
                rw [hcs] at h
                simp only [Option.map_some'] at h
                cases h
                have hlen : cs.length ≤ f := by
                  simp only [List.length_cons] at h₁; omega
                rw [ih (c :: acc) cs j hlen hcs]
                have harr : j + 1 + sep.length = (j + sep.length) + 1 := by omega
                rw [harr, List.drop_succ_cons, List.take_succ_cons]
                simp [List.reverse_cons]

theorem jsSplitList_of_some {sep l : List Char} {i : Nat} (hsep : sep ≠ [])
    (h : findFirstSep sep l = some i) :
    jsSplitList sep l = l.take i :: jsSplitList sep (l.drop (i + sep.length)) := by
  rw [jsSplitList_eq_go hsep, jsSplitGo_some hsep l.length [] l i (Nat.le_refl _) h]
  simp

theorem jsSplitList_ne_nil {sep l : List Char} (hsep : sep ≠ []) :
    jsSplitList sep l ≠ [] := by
  rw [jsSplitList_eq_go hsep]
  exact jsSplitGo_ne_nil sep l.length [] l

theorem lastElemD_cons {α : Type} (x : α) (t : List α) (d : α) (ht : t ≠ []) :
    lastElemD (x :: t) d = lastElemD t d := by
  cases t with
  | nil => exact absurd rfl ht
  | cons y rest => rfl

theorem findFirstSep_nil {sep : List Char} (hsep : sep ≠ []) :
    findFirstSep sep [] = none := by
  simp [findFirstSep, List.isEmpty_iff, hsep]

/-- The last piece of a JS split never contains the separator. -/
theorem jsSplitList_last_no_sep {sep : List Char} (hsep : sep ≠ []) :
    ∀ n l, l.length ≤ n →
      findFirstSep sep (lastElemD (jsSplitList sep l) []) = none := by
  intro n
  induction n with
  | zero =>
      intro l hl
      have : l = [] := List.length_eq_zero.mp (by omega)
      subst this
      rw [jsSplitList_of_none hsep (findFirstSep_nil hsep)]
      exact findFirstSep_nil hsep
  | succ n ih =>
      intro l hl
      cases hf : findFirstSep sep l with
      | none => rw [jsSplitList_of_none hsep hf]; exact hf
      | some i =>
          have hseplen : 1 ≤ sep.length := by
            cases sep with
            | nil => exact absurd rfl hsep
            | cons s ss => simp
          have hbound := findFirstSep_bound hf
          rw [jsSplitList_of_some hsep hf,
            lastElemD_cons _ _ _ (jsSplitList_ne_nil hsep)]
          apply ih
          simp only [List.length_drop]
          omega

/-- When the separator occurs, the last piece of a JS split is a suffix of the
input preceded by the separator. -/
theorem jsSplitList_last_decomp {sep : List Char} (hsep : sep ≠ []) :
    ∀ n l i, l.length ≤ n → findFirstSep sep l = some i →
      ∃ a, l = a ++ sep ++ lastElemD (jsSplitList sep l) [] := by
  intro n
  induction n with
  | zero =>
      intro l i hl hf
      have : l = [] := List.length_eq_zero.mp (by omega)
      subst this
      rw [findFirstSep_nil hsep] at hf
      exact absurd hf (by simp)
  | succ n ih =>
      intro l i hl hf
      have hseplen : 1 ≤ sep.length := by
        cases sep with
        | nil => exact absurd rfl hsep
        | cons s ss => simp
      have hbound := findFirstSep_bound hf
      have hd := findFirstSep_decomp hf
      rw [jsSplitList_of_some hsep hf,
        lastElemD_cons _ _ _ (jsSplitList_ne_nil hsep)]
      have hlen' : (l.drop (i + sep.length)).length ≤ n := by
        simp only [List.length_drop]
        omega
      cases hf' : findFirstSep sep (l.drop (i + sep.length)) with
      | none =>
          rw [jsSplitList_of_none hsep hf']
          exact ⟨l.take i, hd⟩
      | some j =>
          obtain ⟨a', ha'⟩ := ih (l.drop (i + sep.length)) j hlen' hf'
          refine ⟨l.take i ++ sep ++ a', ?_⟩
          conv_lhs => rw [hd, ha']
          simp [List.append_assoc]

/-! ### Properties of the decimal-digit model -/

/-- Little-endian decimal value of a digit list. -/
def ofDigitsLE : List Nat → Nat
  | [] => 0
  | d :: ds => d + 10 * ofDigitsLE ds

theorem natDigitsRevGo_val {fuel n : Nat} (h : n ≤ fuel) :
    ofDigitsLE (natDigitsRevGo fuel n) = n := by
  induction fuel generalizing n with
  | zero =>
      have : n = 0 := by omega
      subst this
      simp [natDigitsRevGo, ofDigitsLE]
  | succ fuel ih =>
      by_cases hn : n = 0
      · subst hn; simp [natDigitsRevGo, ofDigitsLE]
      · have hdiv : n / 10 ≤ fuel := by
          have := Nat.div_lt_self (Nat.pos_of_ne_zero hn) (by omega : 1 < 10)
          omega
        simp only [natDigitsRevGo, if_neg hn, ofDigitsLE]
        rw [ih hdiv]
        omega

theorem natDigitsRevGo_lt {fuel n d : Nat} (h : d ∈ natDigitsRevGo fuel n) :
    d < 10 := by
  induction fuel generalizing n with
  | zero => simp [natDigitsRevGo] at h
  | succ fuel ih =>
      by_cases hn : n = 0
      · subst hn; simp [natDigitsRevGo] at h
      · simp only [natDigitsRevGo, if_neg hn, List.mem_cons] at h
        cases h with
        | inl h => subst h; exact Nat.mod_lt _ (by omega)
        | inr h => exact ih h

theorem natDigitsRevGo_ne_nil {fuel n : Nat} (hn : n ≠ 0) (hf : fuel ≠ 0) :
    natDigitsRevGo fuel n ≠ [] := by
  cases fuel with
  | zero => exact absurd rfl hf
  | succ fuel => simp [natDigitsRevGo, if_neg hn]

theorem foldl_reverse_val (ds : List Nat) :
    ∀ a, List.foldl (fun x d => x * 10 + d) a ds.reverse =
      a * 10 ^ ds.length + ofDigitsLE ds := by
  induction ds with
  | nil => intro a; simp [ofDigitsLE]
  | cons d ds ih =>
      intro a
      simp only [List.reverse_cons, List.foldl_append, List.foldl_cons,
        List.foldl_nil, ih, ofDigitsLE, List.length_cons]
      ring

theorem digitChar_isDigit {d : Nat} (h : d < 10) :
    (digitChar d).isDigit = true := by
  interval_cases d <;> decide

theorem digitChar_toNat {d : Nat} (h : d < 10) :
    (digitChar d).toNat - 48 = d := by
  interval_cases d <;> decide

theorem digitChar_ne_dot {d : Nat} (h : d < 10) : digitChar d ≠ '.' := by
  interval_cases d <;> decide

theorem renderNat_all_digits {n : Nat} {c : Char} (h : c ∈ renderNat n) :
    c.isDigit = true := by
  unfold renderNat at h
  split at h
  · simp only [List.mem_singleton] at h
    subst h; decide
  · simp only [List.mem_map, List.mem_reverse] at h
    obtain ⟨d, hd, rfl⟩ := h
    exact digitChar_isDigit (natDigitsRevGo_lt hd)

theorem renderNat_ne_nil (n : Nat) : renderNat n ≠ [] := by
  unfold renderNat
  split
  · simp
  · rename_i hn
    simp only [ne_eq, List.map_eq_nil_iff, List.reverse_eq_nil_iff]
    exact natDigitsRevGo_ne_nil hn hn

theorem foldl_digitChar (l : List Nat) :
    ∀ a, (∀ d ∈ l, d < 10) →
      List.foldl (fun x c => x * 10 + (Char.toNat c - 48)) a (l.map digitChar) =
        List.foldl (fun x d => x * 10 + d) a l := by
  induction l with
  | nil => intro a _; rfl
  | cons d ds ih =>
      intro a hall
      simp only [List.map_cons, List.foldl_cons]
      rw [digitChar_toNat (hall d (List.mem_cons_self d ds))]
      exact ih _ (fun e he => hall e (List.mem_cons_of_mem d he))

theorem parseNatDigits_renderNat (n : Nat) :
    parseNatDigits (renderNat n) = some n := by
  by_cases hn : n = 0
  · subst hn; decide
  · unfold parseNatDigits
    rw [if_pos ⟨renderNat_ne_nil n, by
      rw [List.all_eq_true]
      intro c hc
      exact renderNat_all_digits hc⟩]
    congr 1
    unfold renderNat
    rw [if_neg hn]
    rw [foldl_digitChar _ 0
      (fun d hd => natDigitsRevGo_lt (List.mem_reverse.mp hd))]
    rw [foldl_reverse_val]
    simp [natDigitsRevGo_val (Nat.le_refl n)]

/-! ### Splitting on a single-character separator -/

theorem findFirstSep_singleton_none {ch : Char} {l : List Char} (h : ch ∉ l) :
    findFirstSep [ch] l = none := by
  rw [findFirstSep_none_iff (by simp)]
  rintro ⟨a, b, rfl⟩
  simp at h

theorem findFirstSep_singleton_append {ch : Char} {a : List Char} (r : List Char)
    (h : ch ∉ a) : findFirstSep [ch] (a ++ ch :: r) = some a.length := by
  induction a with
  | nil => simp [findFirstSep, List.isPrefixOf]
  | cons x a' ih =>
      have hx : ch ≠ x := fun hc => h (by simp [hc])
      have ha' : ch ∉ a' := fun hc => h (by simp [hc])
      simp only [List.cons_append, findFirstSep, List.isPrefixOf, List.append_eq,
        Bool.and_true, beq_iff_eq]
      rw [if_neg hx, ih ha']
      simp

theorem jsSplitList_singleton_cons {ch : Char} {a : List Char} (r : List Char)
    (h : ch ∉ a) :
    jsSplitList [ch] (a ++ ch :: r) = a :: jsSplitList [ch] r := by
  rw [jsSplitList_of_some (by simp) (findFirstSep_singleton_append r h)]
  congr 1
  · exact List.take_left a (ch :: r)
  · congr 1
    rw [show a.length + List.length [ch] = (a ++ [ch]).length by simp]
    rw [show a ++ ch :: r = (a ++ [ch]) ++ r by simp]
    exact List.drop_left (a ++ [ch]) r

theorem jsSplitList_three {ch : Char} {a b c : List Char}
    (ha : ch ∉ a) (hb : ch ∉ b) (hc : ch ∉ c) :
    jsSplitList [ch] (a ++ ch :: (b ++ ch :: c)) = [a, b, c] := by
  rw [jsSplitList_singleton_cons _ ha, jsSplitList_singleton_cons _ hb,
    jsSplitList_of_none (by simp) (findFirstSep_singleton_none hc)]

/-! ### The semver model's roundtrip and monotonicity -/

theorem dot_not_in_renderNat (n : Nat) : '.' ∉ renderNat n := by
  intro h
  have := renderNat_all_digits h
  simp at this

theorem parseSemVer_renderSemVer (v : SemVer) :
    parseSemVer (renderSemVer v) = some v := by
  show parseSemVer
    (String.mk (renderNat v.major ++ '.' :: (renderNat v.minor ++ '.' :: renderNat v.patch)))
      = some v
  unfold parseSemVer
  have hdata : (String.mk (renderNat v.major ++ '.' ::
      (renderNat v.minor ++ '.' :: renderNat v.patch))).data =
      renderNat v.major ++ '.' :: (renderNat v.minor ++ '.' :: renderNat v.patch) := rfl
  rw [hdata, jsSplitList_three (dot_not_in_renderNat _) (dot_not_in_renderNat _)
    (dot_not_in_renderNat _)]
  simp [parseNatDigits_renderNat]

theorem semverIncVer_lt {v w : SemVer} {rt : String}
    (h : semverIncVer v rt = some w) : semverLtV v w = true := by
  unfold semverIncVer at h
  split at h
  · cases h; simp [semverLtV]
  · split at h
    · cases h; simp [semverLtV]
    · split at h
      · cases h; simp [semverLtV]
      · cases h

theorem semverInc_lt {a b rt : String} (h : semverInc a rt = some b) :
    semverLt a b = true := by
  cases hp : parseSemVer a with
  | none => simp [semverInc, hp] at h
  | some v =>
      simp only [semverInc, hp] at h
      cases hi : semverIncVer v rt with
      | none => simp [hi] at h
      | some w =>
          simp only [hi, Option.some.injEq] at h
          subst h
          simp only [semverLt, hp, parseSemVer_renderSemVer]
          exact semverIncVer_lt hi

/-! ### Concrete fixtures used to instantiate the theorems -/

/-- A concrete collaborator oracle. -/
def sampleEnv : Env :=
  { findMergedReleasePR := fun _ => none
    latestTag := some { sha := "abc123", name := "v1.2.3", version := "1.2.3" }
    commitsSinceSha := fun _ => ["fix: handle null\n-hash-deadbeef"]
    suggestBump := fun _ _ => { releaseType := "patch" }
    generateChangelogEntry := fun _ p => "## " ++ p.version ++ "\n* fix: handle null"
    openPR := fun _ => 12
    findOpenReleasePRs := fun _ => [{ number := 10 }, { number := 11 }, { number := 12 }] }

/-- A concrete `ReleasePR` built through the constructor. -/
def sampleRP : ReleasePR :=
  ReleasePR.ofOptions
    { bumpMinorPreMajor := none
      label := "autorelease: pending"
      issueLabel := none
      token := none
      repoUrl := "googleapis/release-please"
      packageName := "release-please"
      releaseAs := none
      releaseType := "node" }

/-- A concrete latest tag. -/
def sampleTag : GitHubTag := { sha := "abc123", name := "v1.2.3", version := "1.2.3" }

/-- Concrete `ConventionalCommits` constructor arguments. -/
def sampleCC : CCParams :=
  { commits := ["fix: handle null\n-hash-deadbeef"]
    githubRepoUrl := "googleapis/release-please"
    bumpMinorPreMajor := false }

/-! ### Claims about the Version Coercer -/

/-- C4: with an explicit version override present, `coerceReleaseCandidate`
returns the override string verbatim, for every oracle, commit content and
previous-tag value: the override takes precedence over the computed bump
unconditionally, so the result is independent of the other inputs. -/
theorem coerce_override_verbatim (rp : ReleasePR) (env : Env) (cc : CCParams)
    (latestTag : Option GitHubTag) (ra : String)
    (hra : rp.releaseAs = some ra) (hne : ra ≠ "") :
    rp.coerceReleaseCandidate env cc latestTag =
      Except.ok { version := ra, previousTag := latestTag.map (fun t => t.name) } := by
  have ht : truthyStr (some ra) = true := by simp [truthyStr, hne]
  simp [ReleasePR.coerceReleaseCandidate, hra, ht]

theorem coerce_override_verbatim_witness :
    ({ sampleRP with releaseAs := some "2.0.0" }).coerceReleaseCandidate
        sampleEnv sampleCC (some sampleTag) =
      Except.ok { version := "2.0.0", previousTag := some "v1.2.3" } :=
  coerce_override_verbatim _ sampleEnv sampleCC (some sampleTag) "2.0.0" rfl
    (by decide)

/-- C6: with no previous tag and no (truthy) override, `coerceReleaseCandidate`
returns the seed version `1.0.0` and an absent previous tag, regardless of the
bump the classified commits would produce. -/
theorem coerce_seed_version_first_release (rp : ReleasePR) (env : Env)
    (cc : CCParams) (hra : truthyStr rp.releaseAs = false) :
    rp.coerceReleaseCandidate env cc none =
      Except.ok { version := "1.0.0", previousTag := none } := by
  simp [ReleasePR.coerceReleaseCandidate, hra]

theorem coerce_seed_version_first_release_witness :
    sampleRP.coerceReleaseCandidate sampleEnv
        { commits := ["feat!: initial breaking api\n-hash-deadbeef"]
          githubRepoUrl := "googleapis/release-please"
          bumpMinorPreMajor := false } none =
      Except.ok { version := "1.0.0", previousTag := none } :=
  coerce_seed_version_first_release sampleRP sampleEnv _ rfl

/-- C7: with a previous tag and no override, `coerceReleaseCandidate` returns
the semver increment of the previous version by the suggested bump's size, and
errs exactly when that increment cannot be computed, with a message that
contains the offending previous-version string. -/
theorem coerce_increment_or_error (rp : ReleasePR) (env : Env) (cc : CCParams)
    (t : GitHubTag) (hra : truthyStr rp.releaseAs = false) :
    (∀ v, semverInc t.version (env.suggestBump cc t.version).releaseType = some v →
        rp.coerceReleaseCandidate env cc (some t) =
          Except.ok { version := v, previousTag := some t.name }) ∧
    (semverInc t.version (env.suggestBump cc t.version).releaseType = none →
        rp.coerceReleaseCandidate env cc (some t) =
          Except.error ("failed to increment " ++ t.version)) ∧
    ("failed to increment " ++ t.version).data =
      "failed to increment ".data ++ t.version.data := by
  refine ⟨?_, ?_, rfl⟩
  · intro v hv
    simp [ReleasePR.coerceReleaseCandidate, hra, hv]
  · intro hv
    simp [ReleasePR.coerceReleaseCandidate, hra, hv]

theorem coerce_increment_or_error_witness :
    sampleRP.coerceReleaseCandidate sampleEnv sampleCC (some sampleTag) =
      Except.ok { version := "1.2.4", previousTag := some "v1.2.3" } :=
  (coerce_increment_or_error sampleRP sampleEnv sampleCC sampleTag rfl).1
    "1.2.4" (by decide)

/-- C8: every successful coercion with a previous tag and no override yields a
version strictly greater than the previous tag's under semver ordering; with
an explicit override the invariant is not enforced — an override can request a
strictly smaller version. -/
theorem coerce_monotone_unless_override :
    (∀ (rp : ReleasePR) (env : Env) (cc : CCParams) (t : GitHubTag)
        (cand : ReleaseCandidate),
      truthyStr rp.releaseAs = false →
      rp.coerceReleaseCandidate env cc (some t) = Except.ok cand →
      semverLt t.version cand.version = true) ∧
    (∃ (rp : ReleasePR) (env : Env) (cc : CCParams) (t : GitHubTag)
        (cand : ReleaseCandidate),
      truthyStr rp.releaseAs = true ∧
      rp.coerceReleaseCandidate env cc (some t) = Except.ok cand ∧
      semverLt t.version cand.version = false ∧
      semverLt cand.version t.version = true) := by
  constructor
  · intro rp env cc t cand hra hok
    simp only [ReleasePR.coerceReleaseCandidate, Option.isSome_some, hra,
      Bool.not_false, Bool.and_true] at hok
    cases hv : semverInc t.version ((env.suggestBump cc t.version).releaseType) with
    | none => rw [hv] at hok; cases hok
    | some v =>
        rw [hv] at hok
        cases hok
        exact semverInc_lt hv
  · exact ⟨{ sampleRP with releaseAs := some "0.1.0" }, sampleEnv, sampleCC,
      sampleTag, { version := "0.1.0", previousTag := some "v1.2.3" },
      by decide, by decide, by decide, by decide⟩

theorem coerce_monotone_unless_override_witness :
    semverLt "1.2.3"
      (ReleaseCandidate.version { version := "1.2.4", previousTag := some "v1.2.3" }) = true :=
  coerce_monotone_unless_override.1 sampleRP sampleEnv sampleCC sampleTag
    { version := "1.2.4", previousTag := some "v1.2.3" } rfl (by decide)

/-! ### Claims about the orchestration in `run` -/

/-- C1: whenever the merged-but-not-yet-released PR query returns a PR, `run`
returns that PR's number and the collaborator-call trace is exactly the one
query: no tag fetch, commit listing, PR creation, labeling or PR closing
follows. -/
theorem run_pending_release_short_circuits (rp : ReleasePR) (env : Env)
    (pr : GitHubReleasePR) (h : env.findMergedReleasePR rp.labels = some pr) :
    rp.run env =
      ([GHCall.findMergedReleasePR rp.labels], Except.ok (some pr.number)) := by
  simp [ReleasePR.run, h]

theorem run_pending_release_short_circuits_witness :
    ReleasePR.run sampleRP
        { sampleEnv with
          findMergedReleasePR := fun _ => some { number := 42, sha := "bead" } } =
      ([GHCall.findMergedReleasePR ["autorelease: pending"]],
        Except.ok (some 42)) :=
  run_pending_release_short_circuits sampleRP _ { number := 42, sha := "bead" } rfl

/-- C5 (counterexample): with an unknown release type and no pending merged
PR, the run does fail fatally, but a remote collaborator call — the merged-PR
query — has already been made before the failure, so the failure does not
precede every remote call. -/
theorem run_unknown_type_query_precedes_failure :
    ReleasePR.run { sampleRP with releaseType := "python" } sampleEnv =
      ([GHCall.findMergedReleasePR ["autorelease: pending"]],
        Except.error "unknown release type") ∧
    (ReleasePR.run { sampleRP with releaseType := "python" } sampleEnv).1 ≠ [] := by
  constructor
  · decide
  · decide

/-- C5 (amended): with an unknown release-type selector and no pending merged
PR, the run fails fatally, and the only collaborator call preceding the
failure is the merged-PR query — no tag fetch, commit listing, PR creation,
labeling or closing is requested. -/
theorem run_unknown_type_fails_after_single_query (rp : ReleasePR) (env : Env)
    (hm : env.findMergedReleasePR rp.labels = none)
    (ht : rp.releaseType ≠ ReleaseTypeNode) :
    rp.run env =
      ([GHCall.findMergedReleasePR rp.labels],
        Except.error "unknown release type") := by
  simp [ReleasePR.run, hm, ht]

theorem run_unknown_type_fails_after_single_query_witness :
    ReleasePR.run { sampleRP with releaseType := "python" } sampleEnv =
      ([GHCall.findMergedReleasePR ["autorelease: pending"]],
        Except.error "unknown release type") :=
  run_unknown_type_fails_after_single_query _ sampleEnv rfl (by decide)

/-! ### Claims about stale-PR retirement -/

theorem closeStaleLoop_eq (n : Nat) (prs : List PullsListResponseItem) :
    closeStaleLoop n prs =
      (prs.filter (fun pr => pr.number != n)).map
        (fun pr => GHCall.closePR pr.number) := by
  induction prs with
  | nil => rfl
  | cons p rest ih =>
      by_cases hp : p.number = n
      · simp [closeStaleLoop, hp, ih]
      · simp [closeStaleLoop, hp, ih]

/-- C2: stale-PR retirement lists the open PRs carrying the release-tracking
labels and requests `closePR` exactly for those whose number differs from the
kept number `n`; every such PR is requested closed, and PR `n` itself never
is — so after a run that created PR `n`, only PR `n` remains open among the
labeled candidates. -/
theorem closeStaleReleasePRs_closes_exactly_stale (rp : ReleasePR) (env : Env)
    (n : Nat) :
    rp.closeStaleReleasePRs env n =
      GHCall.findOpenReleasePRs rp.labels ::
        ((env.findOpenReleasePRs rp.labels).filter (fun pr => pr.number != n)).map
          (fun pr => GHCall.closePR pr.number) ∧
    (∀ pr ∈ env.findOpenReleasePRs rp.labels, pr.number ≠ n →
      GHCall.closePR pr.number ∈ rp.closeStaleReleasePRs env n) ∧
    GHCall.closePR n ∉ rp.closeStaleReleasePRs env n := by
  refine ⟨?_, ?_, ?_⟩
  · unfold ReleasePR.closeStaleReleasePRs
    rw [closeStaleLoop_eq]
  · intro pr hpr hne
    unfold ReleasePR.closeStaleReleasePRs
    rw [closeStaleLoop_eq]
    refine List.mem_cons_of_mem _ (List.mem_map.mpr ⟨pr, ?_, rfl⟩)
    rw [List.mem_filter]
    exact ⟨hpr, by simp [hne]⟩
  · unfold ReleasePR.closeStaleReleasePRs
    rw [closeStaleLoop_eq]
    intro hmem
    rcases List.mem_cons.mp hmem with hhead | htail
    · cases hhead
    · obtain ⟨pr, hprf, hpr⟩ := List.mem_map.mp htail
      have : pr.number = n := by cases hpr; rfl
      rw [List.mem_filter] at hprf
      simp [this] at hprf

theorem closeStaleReleasePRs_closes_exactly_stale_witness :
    sampleRP.closeStaleReleasePRs sampleEnv 12 =
      [GHCall.findOpenReleasePRs ["autorelease: pending"],
        GHCall.closePR 10, GHCall.closePR 11] ∧
    GHCall.closePR 12 ∉ sampleRP.closeStaleReleasePRs sampleEnv 12 := by
  refine ⟨?_,
    (closeStaleReleasePRs_closes_exactly_stale sampleRP sampleEnv 12).2.2⟩
  rw [(closeStaleReleasePRs_closes_exactly_stale sampleRP sampleEnv 12).1]
  decide

/-- C3: when the synthesized changelog entry is a single line (title only),
the run reports no PR number and performs no further side effects: the trace
stops at the merged-PR query, tag fetch and commit listing — no PR creation,
labeling or stale-PR retirement. -/
theorem run_trivial_changelog_noop (rp : ReleasePR) (env : Env)
    (cand : ReleaseCandidate)
    (hm : env.findMergedReleasePR rp.labels = none)
    (ht : rp.releaseType = ReleaseTypeNode)
    (hc : rp.coerceReleaseCandidate env
        { commits := env.commitsSinceSha (env.latestTag.map (fun t => t.sha))
          githubRepoUrl := rp.repoUrl
          bumpMinorPreMajor := rp.bumpMinorPreMajor } env.latestTag =
      Except.ok cand)
    (hone : (jsSplitList ['\n'] (env.generateChangelogEntry
        { commits := env.commitsSinceSha (env.latestTag.map (fun t => t.sha))
          githubRepoUrl := rp.repoUrl
          bumpMinorPreMajor := rp.bumpMinorPreMajor }
        { version := cand.version
          currentTag := "v" ++ cand.version
          previousTag := cand.previousTag }).data).length = 1) :
    rp.run env =
      ([GHCall.findMergedReleasePR rp.labels, GHCall.latestTag,
        GHCall.commitsSinceSha (env.latestTag.map (fun t => t.sha))],
       Except.ok none) := by
  simp only [ReleasePR.run, hm, ht, if_pos]
  simp only [ReleasePR.nodeRelease, hc, hone, if_pos]
  simp

theorem run_trivial_changelog_noop_witness :
    ReleasePR.run sampleRP
        { sampleEnv with
          commitsSinceSha := fun _ => ["chore: update deps\n-hash-deadbeef"]
          generateChangelogEntry := fun _ p => "## " ++ p.version } =
      ([GHCall.findMergedReleasePR ["autorelease: pending"], GHCall.latestTag,
        GHCall.commitsSinceSha (some "abc123")],
       Except.ok none) :=
  run_trivial_changelog_noop sampleRP _
    { version := "1.2.4", previousTag := some "v1.2.3" } rfl rfl (by decide)
    (by decide)

/-! ### Label-list uniformity across collaborator calls -/

theorem callLabels_closeStaleLoop {n : Nat} {prs : List PullsListResponseItem}
    {c : GHCall} (h : c ∈ closeStaleLoop n prs) : callLabels c = none := by
  induction prs with
  | nil => simp [closeStaleLoop] at h
  | cons p rest ih =>
      simp only [closeStaleLoop] at h
      split at h
      · rcases List.mem_cons.mp h with hh | h'
        · subst hh; rfl
        · exact ih h'
      · exact ih h

theorem nodeRelease_trace_shape (rp : ReleasePR) (env : Env) :
    (rp.nodeRelease env).1 =
      [GHCall.latestTag,
        GHCall.commitsSinceSha (env.latestTag.map (fun t => t.sha))] ∨
    ∃ params pr,
      (rp.nodeRelease env).1 =
        [GHCall.latestTag,
          GHCall.commitsSinceSha (env.latestTag.map (fun t => t.sha)),
          GHCall.openPR params, GHCall.addLabels pr rp.labels,
          GHCall.findOpenReleasePRs rp.labels] ++
            closeStaleLoop pr (env.findOpenReleasePRs rp.labels) ∧
      OpenPRParams.labels params = rp.labels := by
  unfold ReleasePR.nodeRelease ReleasePR.closeStaleReleasePRs
  dsimp only
  split
  · left; rfl
  · split
    · left; rfl
    · split
      · left; rfl
      · right
        exact ⟨_, _, rfl, rfl⟩

theorem run_trace_shape (rp : ReleasePR) (env : Env) :
    (rp.run env).1 = [GHCall.findMergedReleasePR rp.labels] ∨
    (rp.run env).1 =
      GHCall.findMergedReleasePR rp.labels :: (rp.nodeRelease env).1 := by
  unfold ReleasePR.run
  dsimp only
  cases env.findMergedReleasePR rp.labels with
  | some pr => left; rfl
  | none =>
      by_cases ht : rp.releaseType = ReleaseTypeNode
      · right
        rw [if_pos ht]
        rfl
      · left
        rw [if_neg ht]

theorem run_labels_arg (rp : ReleasePR) (env : Env) (c : GHCall)
    (hc : c ∈ (rp.run env).1) (ls : List String)
    (hl : callLabels c = some ls) : ls = rp.labels := by
  rcases run_trace_shape rp env with hsh | hsh
  · rw [hsh] at hc
    simp only [List.mem_singleton] at hc
    subst hc
    cases hl
    rfl
  · rw [hsh] at hc
    rcases List.mem_cons.mp hc with hh | hc
    · subst hh; cases hl; rfl
    · rcases nodeRelease_trace_shape rp env with hsh2 | ⟨params, pr, hsh2, hpl⟩
      · rw [hsh2] at hc
        rcases List.mem_cons.mp hc with hh | hc
        · subst hh; cases hl
        · rcases List.mem_cons.mp hc with hh | hc
          · subst hh; cases hl
          · simp at hc
      · rw [hsh2] at hc
        simp only [List.cons_append, List.nil_append, List.mem_cons,
          List.mem_append] at hc
        rcases hc with hh | hh | hh | hh | hh | hloop
        · subst hh; cases hl
        · subst hh; cases hl
        · subst hh
          cases hl
          exact hpl
        · subst hh; cases hl; rfl
        · subst hh; cases hl; rfl
        · rw [callLabels_closeStaleLoop hloop] at hl
          cases hl

/-- C9: every label-consuming collaborator call a run makes — the merged-PR
query, PR creation, label addition, and the open-PR query of stale
retirement — receives the identical label list, the one computed once by
splitting the constructor's `label` option on `','`; in particular the
created PR carries exactly the labels the retirement query searches for. -/
theorem run_label_list_uniform (options : ReleasePROptions) (env : Env)
    (c : GHCall) (hc : c ∈ ((ReleasePR.ofOptions options).run env).1)
    (ls : List String) (hl : callLabels c = some ls) :
    ls = jsSplit "," options.label :=
  run_labels_arg (ReleasePR.ofOptions options) env c hc ls hl

theorem run_label_list_uniform_witness :
    (["autorelease: pending"] : List String) =
      jsSplit "," "autorelease: pending" :=
  run_label_list_uniform
    { bumpMinorPreMajor := none
      label := "autorelease: pending"
      issueLabel := none
      token := none
      repoUrl := "googleapis/release-please"
      packageName := "release-please"
      releaseAs := none
      releaseType := "node" } sampleEnv
    (GHCall.findMergedReleasePR ["autorelease: pending"]) (by decide)
    ["autorelease: pending"] rfl

/-! ### The branch-point sha extraction -/

/-- Follows the claim's words, for comparison with `shaFromCommits` (which is
translated from the source): the text following the last occurrence of the
delimiter in a message, `none` when the delimiter does not occur. -/
def textAfterLastOccurrence (sep l : List Char) : Option (List Char) :=
  (((List.range (l.length + 1)).filter
      (fun i => sep.isPrefixOf (l.drop i))).getLast?).map
    (fun i => l.drop (i + sep.length))

/-- C10 (counterexample): on the message `-hash-hash-` the two occurrences of
`-hash-` overlap; the text after the last occurrence is empty, yet
`shaFromCommits` — which scans left to right and resumes after each matched
separator — returns `hash-`, so "trimmed text following the last occurrence"
misdescribes the code on overlapping occurrences. -/
theorem shaFromCommits_last_occurrence_counterexample :
    textAfterLastOccurrence "-hash-".data "-hash-hash-".data = some [] ∧
    shaFromCommits ["-hash-hash-"] = some "hash-" ∧
    jsTrimChars [] = [] ∧ some ("hash-" : String) ≠ some (String.mk []) := by
  refine ⟨by decide, by decide, rfl, by decide⟩

/-- C10 (amended): for a non-empty commit list, `shaFromCommits` returns the
trimmed last piece of the left-to-right disjoint-scan split of the first
message on `-hash-` (JS `split` semantics).  The split is never empty — the
out-of-bounds default of the last-element indexing is unreachable — and the
returned piece contains no further `-hash-`; when the delimiter does not occur
at all the entire trimmed message is returned, and when it does occur the
piece is a suffix of the message preceded by `-hash-`. -/
theorem shaFromCommits_scan_characterization (msg : String) (rest : List String) :
    jsSplitList "-hash-".data msg.data ≠ [] ∧
    shaFromCommits (msg :: rest) =
      some (String.mk (jsTrimChars
        (lastElemD (jsSplitList "-hash-".data msg.data) []))) ∧
    ((¬ ∃ a b, msg.data = a ++ "-hash-".data ++ b) →
      shaFromCommits (msg :: rest) = some (String.mk (jsTrimChars msg.data))) ∧
    ((∃ a b, msg.data = a ++ "-hash-".data ++ b) →
      ∃ a, msg.data =
          a ++ "-hash-".data ++ lastElemD (jsSplitList "-hash-".data msg.data) [] ∧
        ¬ ∃ a2 b2, lastElemD (jsSplitList "-hash-".data msg.data) [] =
          a2 ++ "-hash-".data ++ b2) := by
  have hsep : "-hash-".data ≠ [] := by decide
  refine ⟨jsSplitList_ne_nil hsep, rfl, ?_, ?_⟩
  · intro hno
    have hnone : findFirstSep "-hash-".data msg.data = none :=
      (findFirstSep_none_iff hsep msg.data).mpr hno
    show some _ = some _
    rw [jsSplitList_of_none hsep hnone]
    rfl
  · intro hocc
    cases hf : findFirstSep "-hash-".data msg.data with
    | none => exact absurd hocc ((findFirstSep_none_iff hsep msg.data).mp hf)
    | some i =>
        obtain ⟨a, ha⟩ :=
          jsSplitList_last_decomp hsep msg.data.length msg.data i
            (Nat.le_refl _) hf
        refine ⟨a, ha, ?_⟩
        rw [← findFirstSep_none_iff hsep]
        exact jsSplitList_last_no_sep hsep msg.data.length msg.data (Nat.le_refl _)

theorem shaFromCommits_scan_characterization_witness :
    shaFromCommits ["fix: handle null\n-hash-deadbeef "] =
      some (String.mk (jsTrimChars
        (lastElemD (jsSplitList "-hash-".data
          "fix: handle null\n-hash-deadbeef ".data) []))) ∧
    shaFromCommits ["fix: handle null\n-hash-deadbeef "] = some "deadbeef" :=
  ⟨(shaFromCommits_scan_characterization "fix: handle null\n-hash-deadbeef " []).2.1,
    by decide⟩

end ReleasePlease
